import Mathlib

/-
Shallow embedding of the email-extractor backend (src/app.py).

Python strings are modelled as `List Char` (code points; the email pattern
only ever matches ASCII, and Char.toLower / Char.toUpper agree with Python
str.lower / str.capitalize on ASCII).  The regex
local at-sign domain dot tld of app.py line 47 is embedded as an explicit
leftmost, greedy, backtracking matcher with Python re.findall scan
semantics; deduplication and sorting follow lines 49-57; company
derivation follows lines 60-68; CSV writing follows lines 79-88 and
247-253 (csv.writer with QUOTE_MINIMAL quoting and CRLF line terminator).
-/

set_option maxHeartbeats 1000000

namespace EmailExtractor

/-- Python str.lower, character by character (ASCII range). -/
def strLower (s : List Char) : List Char := s.map Char.toLower

/-- Characters matched by the local-part class of the pattern on
app.py line 47: letters, digits, dot, underscore, percent, plus, minus. -/
def isLocalChar (c : Char) : Bool :=
  c.isAlpha || c.isDigit || c == '.' || c == '_' || c == '%' || c == '+' || c == '-'

/-- Characters matched by the domain class of the pattern:
letters, digits, dot, minus. -/
def isDomainChar (c : Char) : Bool :=
  c.isAlpha || c.isDigit || c == '.' || c == '-'

/-- Backtracking of the greedy domain subpattern: given the maximal
domain-character run `d`, try the literal-dot position from high to low
(the regex engine shortens the greedy domain run one character at a time).
Position `j` succeeds when `d` has a dot at index `j` and at least two
alphabetic characters follow it. -/
def domSplit (d : List Char) : Nat → Option Nat
  | 0 => none
  | j + 1 =>
    if d.getD (j + 1) '@' = '.' ∧ 2 ≤ ((d.drop (j + 2)).takeWhile Char.isAlpha).length
    then some (j + 1)
    else domSplit d j

/-- Length of the regex match anchored at the start of `s`, or `none`.
The local-part run is deterministic because no shorter run can be followed
by the literal at-sign (the at-sign is not a local character); the domain
run backtracks via `domSplit`; the final tld repetition is greedy and
last, so it takes the maximal alphabetic run after the dot. -/
def matchAt (s : List Char) : Option Nat :=
  if (s.takeWhile isLocalChar).length = 0 then none
  else
    match s.drop (s.takeWhile isLocalChar).length with
    | [] => none
    | c :: rest =>
      if c = '@' then
        match domSplit (rest.takeWhile isDomainChar)
            ((rest.takeWhile isDomainChar).length - 1) with
        | none => none
        | some j =>
          some ((s.takeWhile isLocalChar).length +
            (1 + (j + 1 +
              (((rest.takeWhile isDomainChar).drop (j + 1)).takeWhile Char.isAlpha).length)))
      else none

/-- Python re.findall scan: try a match at each position left to right;
on success emit the match and resume after it, otherwise advance one
character.  Fuel bounds the number of scan steps; `text.length` always
suffices because each step consumes at least one character. -/
def findallAux : Nat → List Char → List (List Char)
  | 0, _ => []
  | _ + 1, [] => []
  | fuel + 1, c :: s =>
    match matchAt (c :: s) with
    | some n => (c :: s).take n :: findallAux fuel ((c :: s).drop n)
    | none => findallAux fuel s

/-- re.findall of the email pattern over `text` (app.py line 48). -/
def findall_email (text : List Char) : List (List Char) :=
  findallAux text.length text

/-- The dedup loop of app.py lines 50-56: `seen` holds the lowercased
forms already emitted; a match is kept (with its original casing) exactly
when its lowercased form is new. -/
def uniqueEmailsAux (seen : List (List Char)) : List (List Char) → List (List Char)
  | [] => []
  | email :: rest =>
    if strLower email ∈ seen then uniqueEmailsAux seen rest
    else email :: uniqueEmailsAux (strLower email :: seen) rest

/-- Lexicographic comparison of code-point lists, as Python compares
strings. -/
def lexLe : List Char → List Char → Bool
  | [], _ => true
  | _ :: _, [] => false
  | a :: as, b :: bs => if a < b then true else if b < a then false else lexLe as bs

/-- The sort key order of app.py line 57: compare lowercased forms. -/
def emailLe (a b : List Char) : Prop := lexLe (strLower a) (strLower b) = true

instance : DecidableRel emailLe := fun a b => inferInstanceAs (Decidable (_ = true))

/-- extract_emails_from_text (app.py lines 42-57): find all pattern
matches, drop case-insensitive duplicates keeping the first casing, sort
ascending by lowercased value.  Python sorted is modelled by insertion
sort: the deduplicated list has pairwise-distinct keys, for which the
sorted permutation is unique. -/
def extract_emails_from_text (text : List Char) : List (List Char) :=
  List.insertionSort emailLe (uniqueEmailsAux [] (findall_email text))

/-- Python str.split on a single-character separator: always returns one
more part than there are separator occurrences. -/
def splitOnChar (sep : Char) : List Char → List (List Char)
  | [] => [[]]
  | c :: rest =>
    if c = sep then [] :: splitOnChar sep rest
    else
      match splitOnChar sep rest with
      | [] => [[c]]
      | part :: parts => (c :: part) :: parts

/-- Python str.capitalize (ASCII range): first character uppercased, the
rest lowercased. -/
def capitalize : List Char → List Char
  | [] => []
  | c :: rest => c.toUpper :: rest.map Char.toLower

/-- extract_company_from_email (app.py lines 60-68): index 1 of the
at-sign split (an IndexError when there is no at-sign is swallowed by the
bare except, giving the empty string), then the part before the first dot
of that, capitalized. -/
def extract_company_from_email (email : List Char) : List Char :=
  match splitOnChar '@' email with
  | _ :: domain :: _ => capitalize ((splitOnChar '.' domain).headD [])
  | _ => []

/-- QUOTE_MINIMAL test of Python csv.writer: a field is quoted when it
contains the delimiter, the quote character, or a line-terminator
character. -/
def csvQuoteNeeded (field : List Char) : Bool :=
  field.any fun c => c == ',' || c == '"' || c == '\r' || c == '\n'

/-- A single CSV field as csv.writer renders it: quoted with inner quotes
doubled when needed, verbatim otherwise. -/
def csvField (field : List Char) : List Char :=
  if csvQuoteNeeded field then
    '"' :: (field.map fun c => if c = '"' then ['"', '"'] else [c]).flatten ++ ['"']
  else field

/-- One csv.writer row: fields joined by commas, terminated by CRLF. -/
def csvRow (fields : List (List Char)) : List Char :=
  List.intercalate [','] (fields.map csvField) ++ ['\r', '\n']

/-- writer.writerow appends one rendered row to the output buffer. -/
def writerow (out : List Char) (fields : List (List Char)) : List Char :=
  out ++ csvRow fields

/-- The CSV body produced by download_csv_direct (app.py lines 247-253)
and equally by save_to_csv (lines 83-87): header row, then one row per
email with the company re-derived from the email. -/
def download_csv_direct (emails : List (List Char)) : List Char :=
  emails.foldl (fun acc email => writerow acc [email, extract_company_from_email email])
    (writerow [] ["Email".toList, "Company/Domain".toList])

/-- deriveCompany as claim C6 words it, built for comparison with the
code: the domain is the whole portion after the FIRST at-sign, and the
company is the part of that domain before its first dot, capitalized.
Defined (some) exactly when the email contains an at-sign and the domain
contains a dot, the hypothesis of the claim. -/
def deriveCompany_claimC6 (email : List Char) : Option (List Char) :=
  if '@' ∈ email then
    if '.' ∈ (email.dropWhile fun c => !(c == '@')).tail then
      some (capitalize
        (((email.dropWhile fun c => !(c == '@')).tail).takeWhile fun c => !(c == '.')))
    else none
  else none

/-- Membership in the language of the email pattern of app.py line 47:
a nonempty local-character run, an at-sign, a nonempty domain-character
run, a dot, and at least two alphabetic characters. -/
def isEmailMatch (e : List Char) : Prop :=
  ∃ loc dom tld : List Char,
    e = loc ++ '@' :: (dom ++ '.' :: tld) ∧
    loc ≠ [] ∧ (∀ c ∈ loc, isLocalChar c) ∧
    dom ≠ [] ∧ (∀ c ∈ dom, isDomainChar c) ∧
    2 ≤ tld.length ∧ (∀ c ∈ tld, c.isAlpha)

example : findall_email ("hi a@b.co x".toList) = ["a@b.co".toList] := by decide
example : findall_email ("a@b.c".toList) = [] := by decide
example : findall_email ("a@b.c.com z".toList) = ["a@b.c.com".toList] := by decide
example : findall_email ("a@b.co.c".toList) = ["a@b.co".toList] := by decide
example : findall_email ("a@b@c.com".toList) = ["b@c.com".toList] := by decide
example : extract_emails_from_text ("Contact us at a@b.co or A@B.CO for info".toList) =
    ["a@b.co".toList] := by decide
example : extract_company_from_email ("john.doe@Example.com".toList) = "Example".toList := by
  decide
example : extract_company_from_email ("no-at-sign".toList) = [] := by decide
example : extract_company_from_email ("a@bc".toList) = "Bc".toList := by decide
example : extract_company_from_email ("a@b@c.com".toList) = "B".toList := by decide
example : download_csv_direct ["x@y.com".toList] =
    "Email,Company/Domain\r\nx@y.com,Y\r\n".toList := by decide
example : findall_email ("a@b.co.c@d.com".toList) = ["a@b.co".toList, ".c@d.com".toList] := by
  decide
example : findall_email ("x..y%+-@-.-.ab.cde!".toList) = ["x..y%+-@-.-.ab.cde".toList] := by
  decide
example : findall_email ("a@b.cX".toList) = ["a@b.cX".toList] := by decide
example : findall_email ("@a.bc".toList) = [] := by decide
example : findall_email ("a@.com t".toList) = [] := by decide
example : findall_email ("foo@bar.c0m".toList) = [] := by decide
example : findall_email ("a@b-c.d-e.fgh".toList) = ["a@b-c.d-e.fgh".toList] := by decide
example : findall_email ("1@2.34".toList) = [] := by decide
example : findall_email ("a@b.cc.d.ee.f".toList) = ["a@b.cc.d.ee".toList] := by decide
example : findall_email ("Contact us at a@b.co or A@B.CO for info".toList) =
    ["a@b.co".toList, "A@B.CO".toList] := by decide
example : extract_company_from_email ("a@.com".toList) = [] := by decide
example : extract_company_from_email ("a@".toList) = [] := by decide
example : extract_company_from_email ("a@EXAMPLE.org".toList) = "Example".toList := by decide
example : csvRow ["a,b".toList, "c\"d".toList] = "\"a,b\",\"c\"\"d\"\r\n".toList := by decide

theorem domSplit_eq_some (d : List Char) :
    ∀ m j, domSplit d m = some j →
      1 ≤ j ∧ d.getD j '@' = '.' ∧
        2 ≤ ((d.drop (j + 1)).takeWhile Char.isAlpha).length := by
  intro m
  induction m with
  | zero => intro j h; simp [domSplit] at h
  | succ k ih =>
    intro j h
    rw [domSplit] at h
    split at h
    · rename_i hcond
      cases h
      refine ⟨Nat.succ_le_succ (Nat.zero_le k), hcond.1, ?_⟩
      have := hcond.2
      simpa using this
    · exact ih j h

theorem matchAt_eq_some {s : List Char} {n : Nat} (h : matchAt s = some n) :
    ∃ rest j,
      (s.takeWhile isLocalChar).length ≠ 0 ∧
      s.drop (s.takeWhile isLocalChar).length = '@' :: rest ∧
      domSplit (rest.takeWhile isDomainChar) ((rest.takeWhile isDomainChar).length - 1) =
        some j ∧
      n = (s.takeWhile isLocalChar).length +
        (1 + (j + 1 +
          (((rest.takeWhile isDomainChar).drop (j + 1)).takeWhile Char.isAlpha).length)) := by
  rw [matchAt] at h
  split at h
  · simp at h
  · rename_i hl
    split at h
    · simp at h
    · rename_i c rest hd
      split at h
      · rename_i hc
        subst hc
        split at h
        · simp at h
        · rename_i j hds
          exact ⟨rest, j, hl, hd, hds, (Option.some.inj h).symm⟩
      · simp at h

theorem matchAt_pos (s : List Char) (n : Nat) (h : matchAt s = some n) : 1 ≤ n := by
  obtain ⟨rest, j, hl, -, -, hn⟩ := matchAt_eq_some h
  omega

theorem findallAux_step (fuel : Nat) :
    ∀ s : List Char, s.length ≤ fuel → findallAux (fuel + 1) s = findallAux fuel s := by
  induction fuel with
  | zero =>
    intro s hs
    have hnil : s = [] := List.eq_nil_of_length_eq_zero (Nat.le_zero.mp hs)
    subst hnil
    simp [findallAux]
  | succ f ih =>
    intro s hs
    cases s with
    | nil => simp [findallAux]
    | cons c s =>
      have hlen : s.length ≤ f := by
        rw [List.length_cons] at hs
        omega
      cases hm : matchAt (c :: s) with
      | none =>
        simp only [findallAux, hm]
        exact ih s hlen
      | some n =>
        simp only [findallAux, hm]
        have hn : 1 ≤ n := matchAt_pos _ _ hm
        have hdlen : ((c :: s).drop n).length ≤ f := by
          simp only [List.length_drop, List.length_cons]
          omega
        rw [ih _ hdlen]

theorem findallAux_add (s : List Char) : ∀ k, findallAux (s.length + k) s = findall_email s := by
  intro k
  induction k with
  | zero => rfl
  | succ k ih =>
    rw [← ih, Nat.add_succ]
    exact findallAux_step (s.length + k) s (Nat.le_add_right _ _)

theorem findallAux_fuel (s : List Char) (fuel : Nat) (h : s.length ≤ fuel) :
    findallAux fuel s = findall_email s := by
  obtain ⟨k, rfl⟩ := Nat.le.dest h
  exact findallAux_add s k

/-- C7: extraction is total; the scan of findall terminates within its
length budget on every input (any fuel at least the text length gives the
same, well-defined result), and a text with no valid address yields the
empty sequence rather than an error. -/
theorem C7_total :
    (∀ (text : List Char) (fuel : Nat), text.length ≤ fuel →
      findallAux fuel text = findall_email text) ∧
    extract_emails_from_text ("no emails here".toList) = [] :=
  ⟨fun text fuel h => findallAux_fuel text fuel h, by decide⟩

theorem C7_witness :
    findallAux 20 ("hi a@b.co".toList) = findall_email ("hi a@b.co".toList) :=
  C7_total.1 ("hi a@b.co".toList) 20 (by decide)

theorem splitOnChar_of_not_mem (sep : Char) (l : List Char) (h : sep ∉ l) :
    splitOnChar sep l = [l] := by
  induction l with
  | nil => rfl
  | cons c rest ih =>
    rw [List.mem_cons, not_or] at h
    have hc : ¬ c = sep := fun e => h.1 e.symm
    simp [splitOnChar, hc, ih h.2]

theorem splitOnChar_head (sep : Char) (l : List Char) :
    ∃ parts, splitOnChar sep l = (l.takeWhile fun c => !(c == sep)) :: parts := by
  induction l with
  | nil => exact ⟨[], rfl⟩
  | cons c rest ih =>
    obtain ⟨parts, hp⟩ := ih
    by_cases hc : c = sep
    · subst hc
      exact ⟨splitOnChar c rest, by simp [splitOnChar, List.takeWhile_cons]⟩
    · refine ⟨parts, ?_⟩
      rw [splitOnChar, if_neg hc, hp]
      simp [List.takeWhile_cons, hc]

theorem splitOnChar_append (sep : Char) (l1 l2 : List Char) (h : sep ∉ l1) :
    splitOnChar sep (l1 ++ sep :: l2) = l1 :: splitOnChar sep l2 := by
  induction l1 with
  | nil => simp [splitOnChar]
  | cons c rest ih =>
    rw [List.mem_cons, not_or] at h
    have hc : ¬ c = sep := fun e => h.1 e.symm
    rw [List.cons_append, splitOnChar, if_neg hc, ih h.2]

theorem takeWhile_takeWhile (p q : Char → Bool) (l : List Char) :
    (l.takeWhile p).takeWhile q = l.takeWhile fun c => p c && q c := by
  induction l with
  | nil => rfl
  | cons c rest ih =>
    by_cases hp : p c
    · by_cases hq : q c
      · simp [List.takeWhile_cons, hp, hq, ih]
      · simp [List.takeWhile_cons, hp, hq]
    · simp [List.takeWhile_cons, hp]

theorem extract_company_no_at (email : List Char) (h : '@' ∉ email) :
    extract_company_from_email email = [] := by
  rw [extract_company_from_email, splitOnChar_of_not_mem _ _ h]

theorem extract_company_at (pre rest : List Char) (h : '@' ∉ pre) :
    extract_company_from_email (pre ++ '@' :: rest) =
      capitalize (rest.takeWhile fun c => !(c == '@') && !(c == '.')) := by
  rw [extract_company_from_email, splitOnChar_append _ _ _ h]
  obtain ⟨parts, hp⟩ := splitOnChar_head '@' rest
  rw [hp]
  show capitalize ((splitOnChar '.' (rest.takeWhile fun c => !(c == '@'))).headD []) = _
  obtain ⟨parts2, hp2⟩ := splitOnChar_head '.' (rest.takeWhile fun c => !(c == '@'))
  rw [hp2, List.headD_cons, takeWhile_takeWhile]

/-- C5 (amended): extract_company_from_email returns the empty string for
every email that lacks an at-sign (the IndexError of indexing the split is
swallowed by the bare except), rather than propagating an error; in
particular it returns the empty string on the input no-at-sign.  The
original claim also asserted the empty string whenever the domain lacks a
dot, which the code does not do (see the counterexample). -/
theorem C5_no_at_empty (email : List Char) (h : '@' ∉ email) :
    extract_company_from_email email = [] :=
  extract_company_no_at email h

theorem C5_witness :
    extract_company_from_email ("no-at-sign".toList) = [] :=
  C5_no_at_empty ("no-at-sign".toList) (by decide)

/-- C5 counterexample: the input a at-sign bc contains an at-sign and its
domain bc lacks a dot, so the claim as stated predicts the empty string,
but the code returns Bc (capitalize never fails on a dotless domain). -/
theorem C5_counterexample :
    ("a@bc".toList = "a".toList ++ '@' :: "bc".toList) ∧ '.' ∉ "bc".toList ∧
      extract_company_from_email ("a@bc".toList) = "Bc".toList ∧
      "Bc".toList ≠ ([] : List Char) := by
  decide

/-- C6 (amended): for every email containing an at-sign, the code takes
as domain the portion between the first at-sign and the NEXT at-sign (the
second field of the at-sign split), not everything after the first
at-sign; the company is that field truncated at its first dot, first
character uppercased and the rest lowercased; no dot is required for this
to produce a value.  In particular Example for john.doe at Example.com. -/
theorem C6_company_of_domain :
    (∀ pre rest : List Char, '@' ∉ pre →
      extract_company_from_email (pre ++ '@' :: rest) =
        capitalize (rest.takeWhile fun c => !(c == '@') && !(c == '.'))) ∧
    extract_company_from_email ("john.doe@Example.com".toList) = "Example".toList := by
  exact ⟨extract_company_at, by decide⟩

theorem C6_witness :
    extract_company_from_email ("john.doe".toList ++ '@' :: "Example.com".toList) =
      capitalize (("Example.com".toList).takeWhile fun c => !(c == '@') && !(c == '.')) :=
  C6_company_of_domain.1 ("john.doe".toList) ("Example.com".toList) (by decide)

/-- C6 counterexample: on a at-sign b at-sign c.com the claim as stated
(domain is everything after the first at-sign, company is that up to the
first dot, capitalized) predicts B at-sign c, but the code, which splits
on ALL at-signs and keeps field 1, returns B. -/
theorem C6_counterexample :
    deriveCompany_claimC6 ("a@b@c.com".toList) = some ("B@c".toList) ∧
      extract_company_from_email ("a@b@c.com".toList) = "B".toList ∧
      "B".toList ≠ "B@c".toList := by
  decide

/-- C8: extraction is deterministic; identical input text yields an
identical output sequence (the embedding is a pure function of the
text). -/
theorem C8_deterministic (t1 t2 : List Char) (h : t1 = t2) :
    extract_emails_from_text t1 = extract_emails_from_text t2 := by
  rw [h]

theorem C8_witness :
    extract_emails_from_text ("a@b.co".toList) = extract_emails_from_text ("a@b.co".toList) :=
  C8_deterministic ("a@b.co".toList) ("a@b.co".toList) rfl

theorem foldl_writerow (emails : List (List Char)) (out : List Char) :
    emails.foldl (fun acc email => writerow acc [email, extract_company_from_email email]) out =
      out ++ (emails.map fun email => csvRow [email, extract_company_from_email email]).flatten := by
  induction emails generalizing out with
  | nil => simp
  | cons e es ih =>
    rw [List.foldl_cons, ih]
    simp [writerow, List.append_assoc]

/-- C9: direct CSV generation is the header row Email,Company/Domain
followed by exactly one rendered row per input email, whose second field
is extract_company_from_email of that email, re-derived rather than taken
from the caller; for the single input x at-sign y.com the bytes are
exactly the header line and the line x at-sign y.com,Y. -/
theorem C9_csv :
    (∀ emails : List (List Char),
      download_csv_direct emails =
        csvRow ["Email".toList, "Company/Domain".toList] ++
          (emails.map fun email => csvRow [email, extract_company_from_email email]).flatten) ∧
    download_csv_direct ["x@y.com".toList] =
      "Email,Company/Domain\r\nx@y.com,Y\r\n".toList := by
  refine ⟨fun emails => ?_, by decide⟩
  rw [download_csv_direct, foldl_writerow]
  simp [writerow]

theorem lexLe_total (a : List Char) : ∀ b : List Char, lexLe a b = true ∨ lexLe b a = true := by
  induction a with
  | nil => intro b; left; rfl
  | cons x xs ih =>
    intro b
    cases b with
    | nil => right; rfl
    | cons y ys =>
      rcases lt_trichotomy x y with h | h | h
      · left; simp [lexLe, h]
      · subst h
        rcases ih ys with h2 | h2
        · left; simp [lexLe, h2]
        · right; simp [lexLe, h2]
      · right; simp [lexLe, h]

theorem lexLe_trans (a : List Char) :
    ∀ b c : List Char, lexLe a b = true → lexLe b c = true → lexLe a c = true := by
  induction a with
  | nil => intro b c _ _; rfl
  | cons x xs ih =>
    intro b c hab hbc
    cases b with
    | nil => simp [lexLe] at hab
    | cons y ys =>
      cases c with
      | nil => simp [lexLe] at hbc
      | cons z zs =>
        rcases lt_trichotomy x y with hxy | hxy | hxy
        · have hzy : ¬ z < y := by
            intro hzy
            simp [lexLe, hzy, asymm hzy] at hbc
          have hxz : x < z := lt_of_lt_of_le hxy (not_lt.mp hzy)
          simp [lexLe, hxz]
        · subst hxy
          simp only [lexLe] at hab
          rw [if_neg (lt_irrefl x), if_neg (lt_irrefl x)] at hab
          rcases lt_trichotomy x z with hxz | hxz | hxz
          · simp [lexLe, hxz]
          · subst hxz
            simp only [lexLe] at hbc ⊢
            rw [if_neg (lt_irrefl x), if_neg (lt_irrefl x)] at hbc ⊢
            exact ih ys zs hab hbc
          · simp [lexLe, hxz, asymm hxz] at hbc
        · simp [lexLe, hxy, asymm hxy] at hab

instance : IsTrans (List Char) emailLe :=
  ⟨fun a b c hab hbc => lexLe_trans (strLower a) (strLower b) (strLower c) hab hbc⟩

instance : IsTotal (List Char) emailLe :=
  ⟨fun a b => lexLe_total (strLower a) (strLower b)⟩

/-- C3: for every input text the returned sequence is sorted in ascending
order by the lowercased string value of each email (lexicographic
code-point order of the lowercased forms). -/
theorem C3_sorted (text : List Char) :
    List.Sorted emailLe (extract_emails_from_text text) :=
  List.sorted_insertionSort emailLe (uniqueEmailsAux [] (findall_email text))

theorem uniqueEmailsAux_subset (l : List (List Char)) :
    ∀ (seen : List (List Char)) (e : List Char), e ∈ uniqueEmailsAux seen l → e ∈ l := by
  induction l with
  | nil => intro seen e h; simp [uniqueEmailsAux] at h
  | cons a rest ih =>
    intro seen e h
    by_cases ha : strLower a ∈ seen
    · rw [uniqueEmailsAux, if_pos ha] at h
      exact List.mem_cons_of_mem a (ih seen e h)
    · rw [uniqueEmailsAux, if_neg ha] at h
      rcases List.mem_cons.mp h with rfl | h2
      · exact List.mem_cons_self e rest
      · exact List.mem_cons_of_mem a (ih _ e h2)

theorem strLower_mem_uniqueEmailsAux (l : List (List Char)) :
    ∀ (seen : List (List Char)) (x : List Char), x ∈ l →
      strLower x ∈ seen ∨ strLower x ∈ (uniqueEmailsAux seen l).map strLower := by
  induction l with
  | nil => intro seen x hx; simp at hx
  | cons a rest ih =>
    intro seen x hx
    by_cases ha : strLower a ∈ seen
    · rw [uniqueEmailsAux, if_pos ha]
      rcases List.mem_cons.mp hx with rfl | hx2
      · exact Or.inl ha
      · exact ih seen x hx2
    · rw [uniqueEmailsAux, if_neg ha]
      rcases List.mem_cons.mp hx with rfl | hx2
      · right
        rw [List.map_cons]
        exact List.mem_cons_self _ _
      · rcases ih (strLower a :: seen) x hx2 with hmem | hmem
        · rcases List.mem_cons.mp hmem with heq | hseen
          · right
            rw [List.map_cons, heq]
            exact List.mem_cons_self _ _
          · exact Or.inl hseen
        · right
          rw [List.map_cons]
          exact List.mem_cons_of_mem _ hmem

theorem nodup_map_uniqueEmailsAux (l : List (List Char)) :
    ∀ seen : List (List Char),
      ((uniqueEmailsAux seen l).map strLower).Nodup ∧
        ∀ y ∈ (uniqueEmailsAux seen l).map strLower, y ∉ seen := by
  induction l with
  | nil => intro seen; simp [uniqueEmailsAux]
  | cons a rest ih =>
    intro seen
    by_cases ha : strLower a ∈ seen
    · rw [uniqueEmailsAux, if_pos ha]
      exact ih seen
    · rw [uniqueEmailsAux, if_neg ha]
      obtain ⟨hnd, hns⟩ := ih (strLower a :: seen)
      constructor
      · rw [List.map_cons, List.nodup_cons]
        exact ⟨fun hmem => (hns _ hmem) (List.mem_cons_self _ _), hnd⟩
      · intro y hy
        rw [List.map_cons, List.mem_cons] at hy
        rcases hy with rfl | hy
        · exact ha
        · exact fun hseen => hns y hy (List.mem_cons_of_mem _ hseen)

theorem first_of_class_uniqueEmailsAux (l : List (List Char)) :
    ∀ (seen : List (List Char)) (e : List Char), e ∈ uniqueEmailsAux seen l →
      strLower e ∉ seen ∧
        ∃ l1 l2, l = l1 ++ e :: l2 ∧ ∀ x ∈ l1, strLower x ≠ strLower e := by
  induction l with
  | nil => intro seen e h; simp [uniqueEmailsAux] at h
  | cons a rest ih =>
    intro seen e h
    by_cases ha : strLower a ∈ seen
    · rw [uniqueEmailsAux, if_pos ha] at h
      obtain ⟨hn, l1, l2, rfl, hcl⟩ := ih seen e h
      refine ⟨hn, a :: l1, l2, rfl, ?_⟩
      intro x hx
      rcases List.mem_cons.mp hx with rfl | hx2
      · exact fun heq => hn (heq ▸ ha)
      · exact hcl x hx2
    · rw [uniqueEmailsAux, if_neg ha] at h
      rcases List.mem_cons.mp h with rfl | h2
      · exact ⟨ha, [], rest, rfl, by simp⟩
      · obtain ⟨hn, l1, l2, rfl, hcl⟩ := ih (strLower a :: seen) e h2
        rw [List.mem_cons, not_or] at hn
        refine ⟨hn.2, a :: l1, l2, rfl, ?_⟩
        intro x hx
        rcases List.mem_cons.mp hx with rfl | hx2
        · exact fun heq => hn.1 heq.symm
        · exact hcl x hx2

/-- C2: for every input text, no two entries of the result have equal
lowercased forms (the case-insensitive deduplication invariant). -/
theorem C2_dedup_invariant (text : List Char) :
    (extract_emails_from_text text).Pairwise fun a b => strLower a ≠ strLower b := by
  have hnd := (nodup_map_uniqueEmailsAux (findall_email text) []).1
  rw [List.Nodup, List.pairwise_map] at hnd
  exact ((List.perm_insertionSort emailLe _).pairwise_iff
    (fun h heq => h heq.symm)).mpr hnd

/-- C4: every entry of the result is the first match, in left-to-right
scan order of re.findall, among all matches with its lowercased form, so
the original casing of the first occurrence is what is kept; in
particular the two case-variant matches of the given text merge into the
single first-cased entry. -/
theorem C4_first_casing :
    (∀ (text : List Char) (e : List Char), e ∈ extract_emails_from_text text →
      ∃ l1 l2, findall_email text = l1 ++ e :: l2 ∧
        ∀ x ∈ l1, strLower x ≠ strLower e) ∧
    extract_emails_from_text ("Contact us at a@b.co or A@B.CO for info".toList) =
      ["a@b.co".toList] := by
  constructor
  · intro text e h
    have h1 : e ∈ uniqueEmailsAux [] (findall_email text) :=
      (List.perm_insertionSort emailLe _).mem_iff.mp h
    exact (first_of_class_uniqueEmailsAux (findall_email text) [] e h1).2
  · decide

theorem C4_witness :
    ∃ l1 l2, findall_email ("hi a@b.co x".toList) = l1 ++ ("a@b.co".toList) :: l2 ∧
      ∀ x ∈ l1, strLower x ≠ strLower ("a@b.co".toList) :=
  C4_first_casing.1 ("hi a@b.co x".toList) ("a@b.co".toList) (by decide)

/-- C10: extraction is complete for the pattern; every match of the
findall scan has its lowercased form among the lowercased entries of the
result, and the number of entries equals the number of distinct
lowercased matches. -/
theorem C10_complete (text : List Char) :
    (∀ m ∈ findall_email text,
      strLower m ∈ (extract_emails_from_text text).map strLower) ∧
    (extract_emails_from_text text).length =
      ((findall_email text).map strLower).dedup.length := by
  have hperm : (extract_emails_from_text text).Perm
      (uniqueEmailsAux [] (findall_email text)) :=
    List.perm_insertionSort emailLe (uniqueEmailsAux [] (findall_email text))
  constructor
  · intro m hm
    rcases strLower_mem_uniqueEmailsAux (findall_email text) [] m hm with hmem | hmem
    · simp at hmem
    · exact (hperm.map strLower).mem_iff.mpr hmem
  · have hnd1 : ((uniqueEmailsAux [] (findall_email text)).map strLower).Nodup :=
      (nodup_map_uniqueEmailsAux (findall_email text) []).1
    have hnd2 : ((findall_email text).map strLower).dedup.Nodup := List.nodup_dedup _
    have hiff : ∀ y, y ∈ (uniqueEmailsAux [] (findall_email text)).map strLower ↔
        y ∈ ((findall_email text).map strLower).dedup := by
      intro y
      rw [List.mem_dedup]
      constructor
      · intro hy
        obtain ⟨e, he, rfl⟩ := List.mem_map.mp hy
        exact List.mem_map_of_mem strLower
          (uniqueEmailsAux_subset (findall_email text) [] e he)
      · intro hy
        obtain ⟨m, hm, rfl⟩ := List.mem_map.mp hy
        rcases strLower_mem_uniqueEmailsAux (findall_email text) [] m hm with hmem | hmem
        · simp at hmem
        · exact hmem
    have hperm2 : ((uniqueEmailsAux [] (findall_email text)).map strLower).Perm
        (((findall_email text).map strLower).dedup) :=
      (List.perm_ext_iff_of_nodup hnd1 hnd2).mpr hiff
    calc (extract_emails_from_text text).length
        = (uniqueEmailsAux [] (findall_email text)).length := hperm.length_eq
      _ = ((uniqueEmailsAux [] (findall_email text)).map strLower).length :=
          (List.length_map _ _).symm
      _ = ((findall_email text).map strLower).dedup.length := hperm2.length_eq

theorem C10_witness :
    strLower ("a@b.co".toList) ∈
      (extract_emails_from_text ("hi a@b.co x".toList)).map strLower :=
  (C10_complete ("hi a@b.co x".toList)).1 ("a@b.co".toList) (by decide)

theorem prefix_take_eq {α : Type} {l1 l2 : List α} {k : Nat}
    (h : l1 <+: l2) (hk : k ≤ l1.length) : l2.take k = l1.take k := by
  obtain ⟨t, rfl⟩ := h
  rw [List.take_append_eq_append_take, Nat.sub_eq_zero_of_le hk, List.take_zero,
    List.append_nil]

theorem isEmailMatch_of_matchAt {s : List Char} {n : Nat} (h : matchAt s = some n) :
    isEmailMatch (s.take n) := by
  obtain ⟨rest, j, hl, hd, hds, hn⟩ := matchAt_eq_some h
  obtain ⟨hj1, hdot, htld⟩ := domSplit_eq_some (rest.takeWhile isDomainChar) _ j hds
  have hjlen : j < (rest.takeWhile isDomainChar).length := by
    by_contra hge
    rw [List.getD_eq_default _ _ (Nat.le_of_not_lt hge)] at hdot
    exact absurd hdot (by decide)
  have htlen : ((rest.takeWhile isDomainChar).drop (j + 1)).takeWhile Char.isAlpha
      <+: (rest.takeWhile isDomainChar).drop (j + 1) := List.takeWhile_prefix _
  have htlelen : (((rest.takeWhile isDomainChar).drop (j + 1)).takeWhile Char.isAlpha).length ≤
      (rest.takeWhile isDomainChar).length - (j + 1) := by
    have h1 := htlen.length_le
    rwa [List.length_drop] at h1
  have hs : s = s.takeWhile isLocalChar ++ '@' :: rest := by
    have h0 := (List.take_append_drop (s.takeWhile isLocalChar).length s).symm
    have h1 : s.takeWhile isLocalChar = s.take (s.takeWhile isLocalChar).length :=
      List.prefix_iff_eq_take.mp ( List.takeWhile_prefix _)
    rw [hd, ← h1] at h0
    exact h0
  have htake : s.take n = s.takeWhile isLocalChar ++
      '@' :: ((rest.takeWhile isDomainChar).take j ++
        '.' :: ((rest.takeWhile isDomainChar).drop (j + 1)).takeWhile Char.isAlpha) := by
    conv_lhs => rw [hs]
    rw [List.take_append_eq_append_take]
    have hlen1 : (s.takeWhile isLocalChar).take n = s.takeWhile isLocalChar :=
      List.take_of_length_le (by omega)
    have hlen2 : n - (s.takeWhile isLocalChar).length =
        1 + (j + 1 +
          (((rest.takeWhile isDomainChar).drop (j + 1)).takeWhile Char.isAlpha).length) := by
      omega
    rw [hlen1, hlen2, Nat.add_comm 1, List.take_succ_cons]
    rw [prefix_take_eq ( List.takeWhile_prefix isDomainChar) (by omega)]
    rw [List.take_add, List.take_succ]
    have hj : (rest.takeWhile isDomainChar)[j]? = some '.' := by
      rw [List.getElem?_eq_getElem hjlen]
      rw [List.getD_eq_getElem?_getD, List.getElem?_eq_getElem hjlen] at hdot
      exact congrArg some hdot
    rw [hj, ← List.prefix_iff_eq_take.mp htlen]
    simp
  rw [htake]
  refine ⟨s.takeWhile isLocalChar, (rest.takeWhile isDomainChar).take j,
    ((rest.takeWhile isDomainChar).drop (j + 1)).takeWhile Char.isAlpha,
    by simp, ?_, ?_, ?_, ?_, htld, ?_⟩
  · exact fun e => hl (by rw [e]; rfl)
  · exact fun c hc => List.mem_takeWhile_imp hc
  · have hlen : 0 < ((rest.takeWhile isDomainChar).take j).length := by
      rw [List.length_take]
      omega
    exact List.length_pos.mp hlen
  · exact fun c hc => List.mem_takeWhile_imp (List.take_subset j _ hc)
  · exact fun c hc => List.mem_takeWhile_imp hc

theorem mem_findallAux (fuel : Nat) :
    ∀ (s : List Char) (e : List Char), e ∈ findallAux fuel s →
      isEmailMatch e ∧ e.IsInfix s := by
  induction fuel with
  | zero => intro s e h; simp [findallAux] at h
  | succ f ih =>
    intro s e h
    cases s with
    | nil => simp [findallAux] at h
    | cons c s =>
      cases hm : matchAt (c :: s) with
      | none =>
        simp only [findallAux, hm] at h
        obtain ⟨h1, h2⟩ := ih s e h
        exact ⟨h1, h2.trans (List.suffix_cons c s).isInfix⟩
      | some n =>
        simp only [findallAux, hm] at h
        rcases List.mem_cons.mp h with rfl | h2
        · exact ⟨isEmailMatch_of_matchAt hm, ( List.take_prefix n (c :: s)).isInfix⟩
        · obtain ⟨h1, h2⟩ := ih _ e h2
          exact ⟨h1, h2.trans (List.drop_suffix n (c :: s)).isInfix⟩

/-- C1: every element of the extraction result is a member of the
language of the email pattern of app.py line 47 and occurs as a
contiguous substring of the input text. -/
theorem C1_pattern_substring (text e : List Char)
    (h : e ∈ extract_emails_from_text text) :
    isEmailMatch e ∧ e.IsInfix text := by
  have h1 : e ∈ uniqueEmailsAux [] (findall_email text) :=
    (List.perm_insertionSort emailLe _).mem_iff.mp h
  have h2 : e ∈ findall_email text := uniqueEmailsAux_subset _ [] e h1
  exact mem_findallAux text.length text e h2

theorem C1_witness :
    isEmailMatch ("a@b.co".toList) ∧ ("a@b.co".toList).IsInfix ("hi a@b.co x".toList) :=
  C1_pattern_substring ("hi a@b.co x".toList) ("a@b.co".toList) (by decide)

end EmailExtractor
